import Mathlib

/-!
Verification of the lovefield core slice: the in-memory table store
(`lf.backstore.MemoryTable`), the query-engine façade
(`lf.proc.DefaultQueryEngine`), and the select-execution behaviour
exercised by the end-to-end select tests.

The `MemoryTable` is backed by a `goog.structs.Map<number, lf.Row>`: an
insertion-ordered association from numeric keys to rows, with at most one
entry per key.  We embed that map as an association list and the table
operations as structural recursion over it.
-/

namespace Lovefield

/-- A stored row: an integer identity plus an opaque payload addressable by
column name.  The payload is abstracted to a single value, which suffices
for the table-store claims. -/
structure Row where
  id : Nat
  payload : Nat
deriving DecidableEq, Repr

/-- The backing store of a `goog.structs.Map<number, Row>`: an association
list from key to row, kept in insertion order with at most one entry per
key (the map structure never holds two entries with the same key). -/
abbrev MapData := List (Nat × Row)

namespace GoogMap

/-- `goog.structs.Map.get(key, default=null)`: the value stored under the
first (and under the map invariant, only) entry with this key. -/
def get (k : Nat) : MapData → Option Row
  | [] => none
  | p :: rest => if p.1 = k then some p.2 else get k rest

/-- `goog.structs.Map.set(key, value)`: overwrite the entry with this key
in place, or append a fresh entry when the key is absent. -/
def set (k : Nat) (v : Row) : MapData → MapData
  | [] => [(k, v)]
  | p :: rest => if p.1 = k then (k, v) :: rest else p :: set k v rest

/-- `goog.structs.Map.remove(key)`: drop the entry with this key, when
present. -/
def remove (k : Nat) : MapData → MapData
  | [] => []
  | p :: rest => if p.1 = k then rest else p :: remove k rest

/-- `goog.structs.Map.getValues()`: all stored values in entry order. -/
def getValues (d : MapData) : List Row :=
  d.map Prod.snd

/-- `goog.structs.Map.getCount()`: the number of stored entries. -/
def getCount (d : MapData) : Nat :=
  d.length

end GoogMap

/-- `lf.backstore.MemoryTable`: a table is a `goog.structs.Map` from row
identity to row. -/
structure MemoryTable where
  data : MapData
deriving DecidableEq, Repr

namespace MemoryTable

/-- `MemoryTable.prototype.getAll_`: all the rows in the table. -/
def getAll (t : MemoryTable) : List Row :=
  GoogMap.getValues t.data

/-- `MemoryTable.prototype.get(ids)`: an empty `ids` array is treated as
"return all rows"; otherwise each id is looked up in order and the found
rows are pushed onto the result. -/
def get (t : MemoryTable) (ids : List Nat) : List Row :=
  if ids.length = 0 then
    t.getAll
  else
    ids.foldl
      (fun results i =>
        match GoogMap.get i t.data with
        | none => results
        | some row => results ++ [row])
      []

/-- `MemoryTable.prototype.put(rows)`: store each row under its own
identity, overwriting an existing entry with the same key. -/
def put (t : MemoryTable) (rows : List Row) : MemoryTable :=
  ⟨rows.foldl (fun d row => GoogMap.set row.id row d) t.data⟩

/-- `MemoryTable.prototype.remove(ids)`: when `ids` is empty or its length
equals the current entry count, clear the whole map; otherwise remove each
listed id. -/
def remove (t : MemoryTable) (ids : List Nat) : MemoryTable :=
  if ids.length = 0 ∨ ids.length = GoogMap.getCount t.data then
    ⟨[]⟩
  else
    ⟨ids.foldl (fun d i => GoogMap.remove i d) t.data⟩

/-- The invariant `goog.structs.Map` maintains structurally and `put`
establishes: keys are pairwise distinct, and every entry's key is the
identity of the row it stores (only `put` inserts, always under
`row.id()`). -/
def WF (t : MemoryTable) : Prop :=
  (t.data.map Prod.fst).Nodup ∧ ∀ p ∈ t.data, p.1 = p.2.id

instance (t : MemoryTable) : Decidable t.WF := by
  unfold WF
  infer_instance

end MemoryTable

namespace GoogMap

theorem get_set (k k' : Nat) (v : Row) (d : MapData) :
    get k (set k' v d) = if k' = k then some v else get k d := by
  induction d with
  | nil => simp [get, set]
  | cons p rest ih =>
    by_cases h1 : p.1 = k'
    · simp only [set, h1, if_true, get]
      by_cases h2 : k' = k
      · simp [h2]
      · have h3 : ¬ p.1 = k := fun hc => h2 (h1 ▸ hc)
        simp [h2, h3, get]
    · simp only [set, h1, if_false, get, ih]
      by_cases h2 : p.1 = k
      · have h3 : ¬ k' = k := fun hc => h1 (h2.trans hc.symm)
        simp [h2, h3]
      · simp [h2]

theorem remove_eq_filter (k : Nat) (d : MapData)
    (h : (d.map Prod.fst).Nodup) :
    remove k d = d.filter (fun p => !decide (p.1 = k)) := by
  induction d with
  | nil => simp [remove]
  | cons p rest ih =>
    simp only [List.map_cons, List.nodup_cons] at h
    by_cases h1 : p.1 = k
    · have hself : rest.filter (fun p => !decide (p.1 = k)) = rest := by
        apply List.filter_eq_self.mpr
        intro q hq
        have : ¬ q.1 = k := by
          intro hc
          exact h.1 (h1 ▸ hc ▸ List.mem_map_of_mem Prod.fst hq)
        simpa using this
      simp [remove, h1, List.filter_cons, hself]
    · simp [remove, h1, List.filter_cons, ih h.2]

theorem get_filter_ne (k : Nat) (d : MapData) :
    get k (d.filter (fun p => !decide (p.1 = k))) = none := by
  induction d with
  | nil => simp [get]
  | cons p rest ih =>
    by_cases h1 : p.1 = k
    · simp [List.filter_cons, h1, ih]
    · simp [List.filter_cons, h1, get, ih]

theorem get_eq_some_mem {k : Nat} {r : Row} {d : MapData}
    (h : get k d = some r) : (k, r) ∈ d := by
  induction d with
  | nil => simp [get] at h
  | cons p rest ih =>
    by_cases h1 : p.1 = k
    · simp only [get, h1, if_true, Option.some.injEq] at h
      have hp : p = (k, r) := by
        cases p
        simp_all
      exact List.mem_cons.mpr (Or.inl hp.symm)
    · simp only [get, h1, if_false] at h
      exact List.mem_cons_of_mem p (ih h)

theorem get_eq_some_of_mem {k : Nat} {r : Row} {d : MapData}
    (hnd : (d.map Prod.fst).Nodup) (h : (k, r) ∈ d) : get k d = some r := by
  induction d with
  | nil => simp at h
  | cons p rest ih =>
    simp only [List.map_cons, List.nodup_cons] at hnd
    rcases List.mem_cons.mp h with h0 | h0
    · simp [get, ← h0]
    · have hne : ¬ p.1 = k := by
        intro hc
        exact hnd.1 (hc ▸ List.mem_map_of_mem Prod.fst h0)
      simp only [get, hne, if_false]
      exact ih hnd.2 h0

theorem get_filter_not_mem (k : Nat) (ids : List Nat) (d : MapData)
    (h : k ∈ ids) :
    get k (d.filter (fun p => !decide (p.1 ∈ ids))) = none := by
  induction d with
  | nil => simp [get]
  | cons p rest ih =>
    by_cases h1 : p.1 ∈ ids
    · simp [List.filter_cons, h1, ih]
    · have hne : ¬ p.1 = k := fun hc => h1 (hc ▸ h)
      simp [List.filter_cons, h1, get, hne, ih]

end GoogMap

namespace MemoryTable

theorem getLoop_eq_filterMap (ids : List Nat) (d : MapData) (acc : List Row) :
    ids.foldl
      (fun results i =>
        match GoogMap.get i d with
        | none => results
        | some row => results ++ [row])
      acc
      = acc ++ ids.filterMap (fun i => GoogMap.get i d) := by
  induction ids generalizing acc with
  | nil => simp
  | cons i is ih =>
    simp only [List.foldl_cons, List.filterMap_cons]
    cases hg : GoogMap.get i d with
    | none => simp [hg, ih]
    | some row => simp [hg, ih]

theorem get_eq_filterMap (t : MemoryTable) (ids : List Nat) (h : ids ≠ []) :
    t.get ids = ids.filterMap (fun i => GoogMap.get i t.data) := by
  have hlen : ¬ ids.length = 0 := by simpa using h
  simp only [get, hlen, if_false]
  simpa using getLoop_eq_filterMap ids t.data []

theorem removeLoop_eq_filter (ids : List Nat) (d : MapData)
    (h : (d.map Prod.fst).Nodup) :
    ids.foldl (fun d i => GoogMap.remove i d) d
      = d.filter (fun p => !decide (p.1 ∈ ids)) := by
  induction ids generalizing d with
  | nil => simp
  | cons i is ih =>
    simp only [List.foldl_cons]
    rw [GoogMap.remove_eq_filter i d h]
    have hnd : ((d.filter (fun p => !decide (p.1 = i))).map Prod.fst).Nodup :=
      h.sublist (List.Sublist.map Prod.fst (List.filter_sublist d))
    rw [ih _ hnd, List.filter_filter]
    apply List.filter_congr
    intro p _
    by_cases hp : p.1 = i <;> by_cases hps : p.1 ∈ is <;> simp [hp, hps]

theorem putLoop_get_not_mem (rows : List Row) (d : MapData) (k : Nat)
    (h : k ∉ rows.map Row.id) :
    GoogMap.get k (rows.foldl (fun d row => GoogMap.set row.id row d) d)
      = GoogMap.get k d := by
  induction rows generalizing d with
  | nil => simp
  | cons r rs ih =>
    simp only [List.map_cons, List.mem_cons, not_or] at h
    simp only [List.foldl_cons]
    rw [ih _ h.2, GoogMap.get_set]
    have hne : ¬ r.id = k := fun hc => h.1 hc.symm
    simp [hne]

theorem putLoop_get_mem (rows : List Row) (d : MapData) (r : Row)
    (hnd : (rows.map Row.id).Nodup) (hr : r ∈ rows) :
    GoogMap.get r.id (rows.foldl (fun d row => GoogMap.set row.id row d) d)
      = some r := by
  induction rows generalizing d with
  | nil => simp at hr
  | cons r0 rs ih =>
    simp only [List.map_cons, List.nodup_cons] at hnd
    simp only [List.foldl_cons]
    rcases List.mem_cons.mp hr with h0 | h0
    · subst h0
      rw [putLoop_get_not_mem rs _ r.id hnd.1, GoogMap.get_set]
      simp
    · exact ih _ hnd.2 h0

theorem mem_getAll_iff {t : MemoryTable} {r : Row} (hwf : t.WF) :
    r ∈ t.getAll ↔ GoogMap.get r.id t.data = some r := by
  constructor
  · intro h
    rcases List.mem_map.mp h with ⟨p, hp, hpr⟩
    have hk : p.1 = r.id := by rw [hwf.2 p hp, hpr]
    have : (r.id, r) ∈ t.data := by
      have : p = (r.id, r) := by
        cases p
        simp_all
      exact this ▸ hp
    exact GoogMap.get_eq_some_of_mem hwf.1 this
  · intro h
    have := GoogMap.get_eq_some_mem h
    exact List.mem_map.mpr ⟨(r.id, r), this, rfl⟩

theorem get_nil_table (ids : List Nat) : (MemoryTable.mk []).get ids = [] := by
  cases ids with
  | nil => rfl
  | cons i is =>
    rw [get_eq_filterMap _ _ (by simp)]
    apply List.filterMap_eq_nil_iff.mpr
    intro a _
    rfl

end MemoryTable

/-- A concrete well-formed table used to instantiate theorems with
hypotheses. -/
def sampleTable : MemoryTable :=
  ⟨[(1, ⟨1, 10⟩), (2, ⟨2, 20⟩), (3, ⟨3, 30⟩)]⟩

/-- Claim C1: `MemoryTable.get(ids)` with empty `ids` returns all rows
currently stored; with non-empty `ids` it returns exactly those stored rows
whose identity occurs in `ids`, and ids not present in the table are
silently skipped, contributing nothing and causing no error. -/
theorem memoryTable_get_spec (t : MemoryTable) (ids : List Nat) (hwf : t.WF) :
    t.get [] = t.getAll ∧
    (ids ≠ [] → ∀ r : Row, r ∈ t.get ids ↔ r ∈ t.getAll ∧ r.id ∈ ids) := by
  constructor
  · simp [MemoryTable.get]
  · intro hne r
    rw [MemoryTable.get_eq_filterMap t ids hne, List.mem_filterMap]
    constructor
    · rintro ⟨i, hi, hg⟩
      have hmem := GoogMap.get_eq_some_mem hg
      have hid : i = r.id := hwf.2 (i, r) hmem
      subst hid
      exact ⟨(MemoryTable.mem_getAll_iff hwf).mpr hg, hi⟩
    · rintro ⟨hall, hid⟩
      exact ⟨r.id, hid, (MemoryTable.mem_getAll_iff hwf).mp hall⟩

theorem memoryTable_get_spec_witness :
    sampleTable.get [] = sampleTable.getAll ∧
    (([1, 7] : List Nat) ≠ [] → ∀ r : Row,
      r ∈ sampleTable.get [1, 7] ↔ r ∈ sampleTable.getAll ∧ r.id ∈ [1, 7]) :=
  memoryTable_get_spec sampleTable [1, 7] (by decide)

/-- Claim C2: `MemoryTable.remove(ids)` clears the whole table when `ids`
is empty or its length equals the current row count; otherwise the table
afterwards holds exactly the previously stored rows whose identity is not
in `ids` (absent ids are skipped without error). -/
theorem memoryTable_remove_spec (t : MemoryTable) (ids : List Nat)
    (hwf : t.WF) :
    ((ids = [] ∨ ids.length = GoogMap.getCount t.data) →
      (t.remove ids).getAll = []) ∧
    (¬ (ids = [] ∨ ids.length = GoogMap.getCount t.data) →
      ∀ r : Row, r ∈ (t.remove ids).getAll ↔ r ∈ t.getAll ∧ r.id ∉ ids) := by
  constructor
  · intro hcond
    have hc : ids.length = 0 ∨ ids.length = GoogMap.getCount t.data := by
      rcases hcond with h | h
      · left
        simp [h]
      · right
        exact h
    have hrem : t.remove ids = ⟨[]⟩ := by
      unfold MemoryTable.remove
      rw [if_pos hc]
    rw [hrem]
    rfl
  · intro hcond r
    have hc : ¬ (ids.length = 0 ∨ ids.length = GoogMap.getCount t.data) := by
      simpa [List.length_eq_zero] using hcond
    have hdata : (t.remove ids).data
        = t.data.filter (fun p => !decide (p.1 ∈ ids)) := by
      simp only [MemoryTable.remove, if_neg hc]
      exact MemoryTable.removeLoop_eq_filter ids t.data hwf.1
    simp only [MemoryTable.getAll, GoogMap.getValues, hdata]
    constructor
    · intro hr
      rcases List.mem_map.mp hr with ⟨p, hp, hpr⟩
      have hp2 := List.mem_filter.mp hp
      have hkey : p.1 = r.id := by rw [hwf.2 p hp2.1, hpr]
      refine ⟨List.mem_map.mpr ⟨p, hp2.1, hpr⟩, ?_⟩
      have := hp2.2
      rw [hkey] at this
      simpa using this
    · rintro ⟨hall, hid⟩
      rcases List.mem_map.mp hall with ⟨p, hp, hpr⟩
      have hkey : p.1 = r.id := by rw [hwf.2 p hp, hpr]
      refine List.mem_map.mpr ⟨p, List.mem_filter.mpr ⟨hp, ?_⟩, hpr⟩
      rw [hkey]
      simpa using hid

theorem memoryTable_remove_spec_witness :
    ((([2] : List Nat) = [] ∨ ([2] : List Nat).length = GoogMap.getCount sampleTable.data) →
      (sampleTable.remove [2]).getAll = []) ∧
    (¬ (([2] : List Nat) = [] ∨ ([2] : List Nat).length = GoogMap.getCount sampleTable.data) →
      ∀ r : Row, r ∈ (sampleTable.remove [2]).getAll ↔
        r ∈ sampleTable.getAll ∧ r.id ∉ ([2] : List Nat)) :=
  memoryTable_remove_spec sampleTable [2] (by decide)

/-- Claim C3 as stated is false: putting a list of rows that repeats an
identity keeps only the last row for that identity, so getting the listed
identities afterwards does not return the original list as a set.  With
`R = [⟨1, 0⟩, ⟨1, 1⟩]` on the empty table, the row `⟨1, 0⟩` is in `R` but
not among the rows returned by the subsequent get. -/
theorem put_get_roundtrip_counterexample :
    (⟨1, 0⟩ : Row) ∈ ([⟨1, 0⟩, ⟨1, 1⟩] : List Row) ∧
    (⟨1, 0⟩ : Row) ∉
      ((MemoryTable.mk []).put [⟨1, 0⟩, ⟨1, 1⟩]).get
        (([⟨1, 0⟩, ⟨1, 1⟩] : List Row).map Row.id) := by
  decide

/-- Claim C3 (amended): for every table and every non-empty list of rows
whose identities are pairwise distinct, putting the rows and then getting
their identities returns exactly those rows (as a set): put upserts each
row by its identity, overwriting any existing row with the same
identity. -/
theorem put_get_roundtrip (t : MemoryTable) (rows : List Row)
    (hne : rows ≠ []) (hnd : (rows.map Row.id).Nodup) :
    ∀ r : Row, r ∈ (t.put rows).get (rows.map Row.id) ↔ r ∈ rows := by
  intro r
  have hids : rows.map Row.id ≠ [] := by simpa using hne
  rw [MemoryTable.get_eq_filterMap _ _ hids, List.mem_filterMap]
  have hput : (t.put rows).data
      = rows.foldl (fun d row => GoogMap.set row.id row d) t.data := rfl
  constructor
  · rintro ⟨i, hi, hg⟩
    rcases List.mem_map.mp hi with ⟨r0, hr0, hid⟩
    subst hid
    rw [hput, MemoryTable.putLoop_get_mem rows t.data r0 hnd hr0] at hg
    cases hg
    exact hr0
  · intro hr
    refine ⟨r.id, List.mem_map_of_mem Row.id hr, ?_⟩
    rw [hput]
    exact MemoryTable.putLoop_get_mem rows t.data r hnd hr

theorem put_get_roundtrip_witness :
    (⟨2, 99⟩ : Row) ∈ (sampleTable.put [⟨2, 99⟩, ⟨5, 50⟩]).get
        (([⟨2, 99⟩, ⟨5, 50⟩] : List Row).map Row.id) ↔
      (⟨2, 99⟩ : Row) ∈ ([⟨2, 99⟩, ⟨5, 50⟩] : List Row) :=
  put_get_roundtrip sampleTable [⟨2, 99⟩, ⟨5, 50⟩] (by decide) (by decide)
    ⟨2, 99⟩

/-- Claim C4: when every id in `ids` is the identity of a stored row,
removing `ids` and then getting `ids` returns the empty list. -/
theorem remove_get_empty (t : MemoryTable) (ids : List Nat) (hwf : t.WF)
    (hsub : ∀ i ∈ ids, ∃ r ∈ t.getAll, r.id = i) :
    (t.remove ids).get ids = [] := by
  by_cases hc : ids.length = 0 ∨ ids.length = GoogMap.getCount t.data
  · have hrem : t.remove ids = ⟨[]⟩ := by
      unfold MemoryTable.remove
      rw [if_pos hc]
    rw [hrem]
    exact MemoryTable.get_nil_table ids
  · have hids : ids ≠ [] := by
      intro h
      subst h
      simp at hc
    rw [MemoryTable.get_eq_filterMap _ _ hids]
    apply List.filterMap_eq_nil_iff.mpr
    intro i hi
    have hdata : (t.remove ids).data
        = t.data.filter (fun p => !decide (p.1 ∈ ids)) := by
      simp only [MemoryTable.remove, if_neg hc]
      exact MemoryTable.removeLoop_eq_filter ids t.data hwf.1
    rw [hdata]
    exact GoogMap.get_filter_not_mem i ids t.data hi

theorem remove_get_empty_witness :
    (sampleTable.remove [1, 3]).get [1, 3] = [] :=
  remove_get_empty sampleTable [1, 3] (by decide) (by decide)

/-- Claim C10: for every non-empty list of ids, `MemoryTable.get(ids)`
returns the matching rows in the order their ids appear in the input list,
with absent ids skipped in place: the result is the deterministic
per-id lookup sequence of the input list. -/
theorem get_order_follows_ids (t : MemoryTable) (ids : List Nat)
    (h : ids ≠ []) :
    t.get ids = ids.filterMap (fun i => GoogMap.get i t.data) :=
  MemoryTable.get_eq_filterMap t ids h

theorem get_order_follows_ids_witness :
    sampleTable.get [3, 7, 1]
      = ([3, 7, 1] : List Nat).filterMap (fun i => GoogMap.get i sampleTable.data) :=
  get_order_follows_ids sampleTable [3, 7, 1] (by decide)

/-- `lf.proc.DefaultQueryEngine`: holds a logical-plan factory and a
physical-plan factory.  Modelled from the spec for the factory internals
(`lf.proc.LogicalPlanFactory.create` and
`lf.proc.PhysicalPlanFactory.create` are not part of this slice): planning
is pure, so each factory is a plain function from its input to its
output. -/
structure DefaultQueryEngine (Q L P : Type) where
  logicalPlanFactory : Q → L
  physicalPlanFactory : L → P

namespace DefaultQueryEngine

/-- `DefaultQueryEngine.prototype.convertToLogicalPlan_`. -/
def convertToLogicalPlan {Q L P : Type} (e : DefaultQueryEngine Q L P)
    (query : Q) : L :=
  e.logicalPlanFactory query

/-- `DefaultQueryEngine.prototype.convertToPhysicalPlan_`. -/
def convertToPhysicalPlan {Q L P : Type} (e : DefaultQueryEngine Q L P)
    (logicalQueryPlan : L) : P :=
  e.physicalPlanFactory logicalQueryPlan

/-- `DefaultQueryEngine.prototype.getPlan`: first convert the query to a
logical plan, then convert that to a physical plan. -/
def getPlan {Q L P : Type} (e : DefaultQueryEngine Q L P) (query : Q) : P :=
  e.convertToPhysicalPlan (e.convertToLogicalPlan query)

end DefaultQueryEngine

/-- Claim C5: for every query description, `getPlan` is exactly the pure
two-stage composition: convert the query to a logical plan via the logical
plan factory, then convert that logical plan to a physical plan via the
physical plan factory.  No storage is consulted: the computation depends
only on the query and the factories. -/
theorem getPlan_pure_composition {Q L P : Type}
    (e : DefaultQueryEngine Q L P) (query : Q) :
    e.getPlan query
      = e.physicalPlanFactory (e.logicalPlanFactory query) :=
  rfl

/-- Modelled from the spec: the physical operator `TableAccess(t)` (the
operator implementations are not part of this slice) produces every row
currently in the table. -/
def tableAccess (t : MemoryTable) : List Row :=
  t.getAll

/-- Modelled from the spec: the physical operator `Select(p)` keeps the
input rows for which the predicate evaluates to true. -/
def selectWhere (p : Row → Bool) (input : List Row) : List Row :=
  input.filter p

/-- Modelled from the spec: executing `select * from t where p` runs
`Select(p)` over `TableAccess(t)`. -/
def executeSelect (t : MemoryTable) (p : Row → Bool) : List Row :=
  selectWhere p (tableAccess t)

/-- Claim C6: executing a select with where-predicate `p` over table `t`
returns exactly the stored rows on which `p` evaluates to true: no row
satisfying `p` is missing and no row failing `p` is included. -/
theorem select_predicate_exact (t : MemoryTable) (p : Row → Bool) :
    ∀ r : Row, r ∈ executeSelect t p ↔ r ∈ t.getAll ∧ p r = true := by
  intro r
  simp [executeSelect, selectWhere, tableAccess, List.mem_filter]

/-- A row of the Jobs sample table: id, title, and the two salary
columns used by the order-by and aggregation scenarios. -/
structure Job where
  id : Nat
  title : String
  minSalary : Int
  maxSalary : Int
deriving DecidableEq, Repr

/-- Modelled from the spec: the single lexicographic comparator realising
`orderBy(maxSalary, DESC).orderBy(minSalary, ASC)`: compare on `maxSalary`
descending first, and only on ties compare on `minSalary` ascending. -/
def maxDescMinAscLe (a b : Job) : Bool :=
  if a.maxSalary = b.maxSalary then decide (a.minSalary ≤ b.minSalary)
  else decide (b.maxSalary < a.maxSalary)

/-- Modelled from the spec: the `OrderBy` physical operator buffers its
input and stable-sorts it by the single lexicographic comparator. -/
def orderByMaxDescMinAsc (rows : List Job) : List Job :=
  rows.mergeSort maxDescMinAscLe

/-- Claim C7: ordering by `maxSalary DESC` then `minSalary ASC` yields a
permutation of the input in which `maxSalary` is non-increasing along the
whole output, and any two rows sharing the same `maxSalary` appear with
non-decreasing `minSalary`: the multi-column order-by behaves as a single
lexicographic comparator. -/
theorem orderBy_multiple_spec (rows : List Job) :
    (orderByMaxDescMinAsc rows).Perm rows ∧
    (orderByMaxDescMinAsc rows).Pairwise
      (fun a b => b.maxSalary ≤ a.maxSalary ∧
        (a.maxSalary = b.maxSalary → a.minSalary ≤ b.minSalary)) := by
  constructor
  · exact List.mergeSort_perm rows maxDescMinAscLe
  · have htrans : ∀ (a b c : Job),
        maxDescMinAscLe a b → maxDescMinAscLe b c → maxDescMinAscLe a c := by
      intro a b c hab hbc
      unfold maxDescMinAscLe at hab hbc ⊢
      by_cases h1 : a.maxSalary = b.maxSalary
      · rw [if_pos h1] at hab
        simp only [decide_eq_true_eq] at hab
        by_cases h2 : b.maxSalary = c.maxSalary
        · rw [if_pos h2] at hbc
          simp only [decide_eq_true_eq] at hbc
          rw [if_pos (h1.trans h2)]
          simp only [decide_eq_true_eq]
          omega
        · rw [if_neg h2] at hbc
          simp only [decide_eq_true_eq] at hbc
          have h3 : ¬ a.maxSalary = c.maxSalary := by
            rw [h1]
            exact h2
          rw [if_neg h3]
          simp only [decide_eq_true_eq]
          omega
      · rw [if_neg h1] at hab
        simp only [decide_eq_true_eq] at hab
        by_cases h2 : b.maxSalary = c.maxSalary
        · rw [if_pos h2] at hbc
          have h3 : ¬ a.maxSalary = c.maxSalary := by
            rw [← h2]
            exact h1
          rw [if_neg h3]
          simp only [decide_eq_true_eq]
          omega
        · rw [if_neg h2] at hbc
          simp only [decide_eq_true_eq] at hbc
          have h3 : ¬ a.maxSalary = c.maxSalary := by
            intro hc
            omega
          rw [if_neg h3]
          simp only [decide_eq_true_eq]
          omega
    have htotal : ∀ (a b : Job),
        maxDescMinAscLe a b || maxDescMinAscLe b a := by
      intro a b
      unfold maxDescMinAscLe
      by_cases h1 : a.maxSalary = b.maxSalary
      · rw [if_pos h1, if_pos h1.symm]
        simp only [Bool.or_eq_true, decide_eq_true_eq]
        omega
      · have h2 : ¬ b.maxSalary = a.maxSalary := fun hc => h1 hc.symm
        rw [if_neg h1, if_neg h2]
        simp only [Bool.or_eq_true, decide_eq_true_eq]
        omega
    have hsorted := List.sorted_mergeSort htrans htotal rows
    apply hsorted.imp
    intro a b hab
    unfold maxDescMinAscLe at hab
    by_cases h1 : a.maxSalary = b.maxSalary
    · rw [if_pos h1] at hab
      simp only [decide_eq_true_eq] at hab
      exact ⟨le_of_eq h1.symm, fun _ => hab⟩
    · rw [if_neg h1] at hab
      simp only [decide_eq_true_eq] at hab
      exact ⟨le_of_lt hab, fun heq => absurd heq h1⟩

/-- Modelled from the spec: the scalar an aggregator computes over its
whole input, here `min` over a column's values; `none` on empty input. -/
def minScalar : List Int → Option Int
  | [] => none
  | v :: rest =>
    match minScalar rest with
    | none => some v
    | some m => some (min v m)

theorem minScalar_eq_none_iff (l : List Int) :
    minScalar l = none ↔ l = [] := by
  cases l with
  | nil => simp [minScalar]
  | cons v rest =>
    simp only [minScalar]
    cases minScalar rest <;> simp

theorem minScalar_mem (l : List Int) :
    ∀ m : Int, minScalar l = some m → m ∈ l := by
  induction l with
  | nil =>
    intro m h
    simp [minScalar] at h
  | cons v rest ih =>
    intro m h
    cases hr : minScalar rest with
    | none =>
      simp only [minScalar, hr, Option.some.injEq] at h
      simp [← h]
    | some m0 =>
      simp only [minScalar, hr, Option.some.injEq] at h
      rcases le_total v m0 with hle | hle
      · rw [min_eq_left hle] at h
        simp [← h]
      · rw [min_eq_right hle] at h
        exact List.mem_cons_of_mem v (h ▸ ih m0 hr)

theorem minScalar_le (l : List Int) :
    ∀ m : Int, minScalar l = some m → ∀ v ∈ l, m ≤ v := by
  induction l with
  | nil =>
    intro m h
    simp [minScalar] at h
  | cons v rest ih =>
    intro m h w hw
    cases hr : minScalar rest with
    | none =>
      have hnil : rest = [] := (minScalar_eq_none_iff rest).mp hr
      subst hnil
      simp only [minScalar, Option.some.injEq] at h
      simp only [List.mem_singleton] at hw
      omega
    | some m0 =>
      simp only [minScalar, hr, Option.some.injEq] at h
      rcases List.mem_cons.mp hw with h0 | h0
      · subst h0
        rw [← h]
        exact min_le_left _ _
      · have hle := ih m0 hr w h0
        rw [← h]
        exact le_trans (min_le_right _ _) hle

/-- A result row of `select title, maxSalary, min(maxSalary) from Jobs`:
the row's own non-aggregated columns plus the broadcast aggregate value. -/
structure AggRow where
  title : String
  maxSalary : Int
  minMaxSalary : Option Int
deriving DecidableEq, Repr

/-- Modelled from the spec: an `Aggregate` combined with non-aggregated
columns computes its scalar once over the entire input and annotates every
input row with it; the aggregate is not computed per-row. -/
def executeMixedMinAggregate (rows : List Job) : List AggRow :=
  rows.map (fun r => ⟨r.title, r.maxSalary, minScalar (rows.map Job.maxSalary)⟩)

/-- Claim C8: a select combining a `min(maxSalary)` aggregator with the
non-aggregated `title` and `maxSalary` columns over `n` rows yields
exactly `n` result rows; each carries its own `title` and `maxSalary`,
and every result row carries the same scalar: the minimum of `maxSalary`
over the entire input. -/
theorem mixed_aggregate_broadcast (rows : List Job) (hne : rows ≠ []) :
    (executeMixedMinAggregate rows).length = rows.length ∧
    (∀ k (h1 : k < (executeMixedMinAggregate rows).length)
        (h2 : k < rows.length),
      ((executeMixedMinAggregate rows).get ⟨k, h1⟩).title
          = (rows.get ⟨k, h2⟩).title ∧
      ((executeMixedMinAggregate rows).get ⟨k, h1⟩).maxSalary
          = (rows.get ⟨k, h2⟩).maxSalary) ∧
    (∃ m : Int,
      (∀ row ∈ executeMixedMinAggregate rows, row.minMaxSalary = some m) ∧
      m ∈ rows.map Job.maxSalary ∧
      ∀ r ∈ rows, m ≤ r.maxSalary) := by
  refine ⟨by simp [executeMixedMinAggregate], ?_, ?_⟩
  · intro k h1 h2
    constructor <;>
      simp [executeMixedMinAggregate, List.get_eq_getElem, List.getElem_map]
  · cases hm : minScalar (rows.map Job.maxSalary) with
    | none =>
      exfalso
      have hmap := (minScalar_eq_none_iff _).mp hm
      simp only [List.map_eq_nil_iff] at hmap
      exact hne hmap
    | some m =>
      refine ⟨m, ?_, minScalar_mem _ m hm, ?_⟩
      · intro row hrow
        rcases List.mem_map.mp hrow with ⟨r, _, hr⟩
        rw [← hr]
        simp [hm]
      · intro r hr
        exact minScalar_le _ m hm r.maxSalary
          (List.mem_map_of_mem Job.maxSalary hr)

/-- A concrete Jobs sample for instantiating theorems with hypotheses. -/
def sampleJobs : List Job :=
  [⟨1, "clerk", 1000, 5000⟩, ⟨2, "chef", 2000, 3000⟩]

theorem mixed_aggregate_broadcast_witness :
    (executeMixedMinAggregate sampleJobs).length = sampleJobs.length ∧
    (∀ k (h1 : k < (executeMixedMinAggregate sampleJobs).length)
        (h2 : k < sampleJobs.length),
      ((executeMixedMinAggregate sampleJobs).get ⟨k, h1⟩).title
          = (sampleJobs.get ⟨k, h2⟩).title ∧
      ((executeMixedMinAggregate sampleJobs).get ⟨k, h1⟩).maxSalary
          = (sampleJobs.get ⟨k, h2⟩).maxSalary) ∧
    (∃ m : Int,
      (∀ row ∈ executeMixedMinAggregate sampleJobs,
        row.minMaxSalary = some m) ∧
      m ∈ sampleJobs.map Job.maxSalary ∧
      ∀ r ∈ sampleJobs, m ≤ r.maxSalary) :=
  mixed_aggregate_broadcast sampleJobs (by decide)

/-- An Employees row: identity plus the jobId foreign key, the two columns
the implicit-join scenario touches. -/
structure Employee where
  id : Nat
  jobId : Nat
deriving DecidableEq, Repr

/-- A composite result row of a two-table select, keyed by table name: one
component per table in scope, so equality of composites does not depend on
the order the tables were listed in the from clause. -/
structure CompositeRow where
  employee : Employee
  job : Job
deriving DecidableEq, Repr

/-- Modelled from the spec: the `CrossProduct` operator for the from list
[Employees, Jobs]: Cartesian product of left and right, merging the
per-table maps into a composite keyed by table name. -/
def crossProductEJ (es : List Employee) (js : List Job) :
    List CompositeRow :=
  es.flatMap (fun emp => js.map (fun job => ⟨emp, job⟩))

/-- Modelled from the spec: the same `CrossProduct` for the reversed from
list [Jobs, Employees]. -/
def crossProductJE (js : List Job) (es : List Employee) :
    List CompositeRow :=
  js.flatMap (fun job => es.map (fun emp => ⟨emp, job⟩))

/-- Modelled from the spec: the implicit-join where-predicate
`Employees.jobId = target AND Employees.jobId = Jobs.id` evaluated on a
composite row. -/
def implicitJoinPred (target : Nat) (c : CompositeRow) : Bool :=
  decide (c.employee.jobId = target) && decide (c.employee.jobId = c.job.id)

/-- Modelled from the spec: `select * from Employees, Jobs where ...`: the
where-predicate filtered over the cross product. -/
def implicitJoinEJ (es : List Employee) (js : List Job) (target : Nat) :
    List CompositeRow :=
  (crossProductEJ es js).filter (implicitJoinPred target)

/-- Modelled from the spec: the same query with the from list reversed:
`select * from Jobs, Employees where ...`. -/
def implicitJoinJE (js : List Job) (es : List Employee) (target : Nat) :
    List CompositeRow :=
  (crossProductJE js es).filter (implicitJoinPred target)

/-- Claim C9: a two-table select with an implicit join predicate produces
the same set of composite rows whether the from list names the tables in
one order or the reverse order. -/
theorem implicit_join_from_order_irrelevant (es : List Employee)
    (js : List Job) (target : Nat) :
    ∀ c : CompositeRow,
      c ∈ implicitJoinEJ es js target ↔ c ∈ implicitJoinJE js es target := by
  intro c
  simp only [implicitJoinEJ, implicitJoinJE, crossProductEJ, crossProductJE,
    List.mem_filter, List.mem_flatMap, List.mem_map]
  constructor
  · rintro ⟨⟨emp, hemp, job, hjob, hc⟩, hpred⟩
    exact ⟨⟨job, hjob, emp, hemp, hc⟩, hpred⟩
  · rintro ⟨⟨job, hjob, emp, hemp, hc⟩, hpred⟩
    exact ⟨⟨emp, hemp, job, hjob, hc⟩, hpred⟩

end Lovefield
